import Mathlib

/-!
Shallow embedding of the job-market pipeline's cleaning and incremental-load
logic (src/scrapers/data_cleaning.py and src/dags/job_collection_dag.py).

Records are modelled as structures with `Option String` text fields (pandas
NaN becomes `none`) and `Option ℚ` salary fields.  DataFrame column
operations act row-wise, so each stage is embedded as a per-record function
mapped over a list of records.  The regex character class `\s` is modelled by
the ASCII whitespace characters.
-/

namespace JobPipeline

/-! ### Character/string helpers (model of pandas/regex string operations) -/

def isWs (c : Char) : Bool :=
  c = ' ' || c = '\t' || c = '\n' || c = '\r' || c = '\x0b' || c = '\x0c'

def trimChars (l : List Char) : List Char :=
  ((l.dropWhile isWs).reverse.dropWhile isWs).reverse

/-- Model of `str.strip()`. -/
def strTrim (s : String) : String := String.mk (trimChars s.data)

/-- Model of `str.lower()`. -/
def strLower (s : String) : String := String.mk (s.data.map Char.toLower)

/-- Model of `str.upper()`. -/
def strUpper (s : String) : String := String.mk (s.data.map Char.toUpper)

def listIsPrefix : List Char → List Char → Bool
  | [], _ => true
  | _ :: _, [] => false
  | a :: as, b :: bs => a = b && listIsPrefix as bs

def listContainsSub (pat : List Char) : List Char → Bool
  | [] => listIsPrefix pat []
  | c :: rest => listIsPrefix pat (c :: rest) || listContainsSub pat rest

/-- Substring test (model of Python `pat in s` / anchorless regex search). -/
def strContainsSub (hay pat : String) : Bool := listContainsSub pat.data hay.data

/-- Case-insensitive substring test (model of `str.contains(pat, case=False)`). -/
def containsCI (hay pat : String) : Bool := strContainsSub (strLower hay) (strLower pat)

/-- Model of `str.split(',', n=1)`: text before the first comma, and the
(optional) remainder after it. -/
def splitCommaAux (acc : List Char) : List Char → List Char × Option (List Char)
  | [] => (acc.reverse, none)
  | c :: cs => if c = ',' then (acc.reverse, some cs) else splitCommaAux (c :: acc) cs

def memStr (j : String) (l : List String) : Bool := l.any (fun x => x = j)

def keySeen (k : Option String) (seen : List (Option String)) : Bool :=
  seen.any (fun x => x = k)

/-! ### State tables (data_cleaning.py lines 7-23) -/

def STATE_NAME_TO_CODE : List (String × String) :=
  [("Alabama", "AL"), ("Alaska", "AK"), ("Arizona", "AZ"), ("Arkansas", "AR"),
   ("California", "CA"), ("Colorado", "CO"), ("Connecticut", "CT"), ("Delaware", "DE"),
   ("Florida", "FL"), ("Georgia", "GA"), ("Hawaii", "HI"), ("Idaho", "ID"),
   ("Illinois", "IL"), ("Indiana", "IN"), ("Iowa", "IA"), ("Kansas", "KS"),
   ("Kentucky", "KY"), ("Louisiana", "LA"), ("Maine", "ME"), ("Maryland", "MD"),
   ("Massachusetts", "MA"), ("Michigan", "MI"), ("Minnesota", "MN"), ("Mississippi", "MS"),
   ("Missouri", "MO"), ("Montana", "MT"), ("Nebraska", "NE"), ("Nevada", "NV"),
   ("New Hampshire", "NH"), ("New Jersey", "NJ"), ("New Mexico", "NM"), ("New York", "NY"),
   ("North Carolina", "NC"), ("North Dakota", "ND"), ("Ohio", "OH"), ("Oklahoma", "OK"),
   ("Oregon", "OR"), ("Pennsylvania", "PA"), ("Rhode Island", "RI"), ("South Carolina", "SC"),
   ("South Dakota", "SD"), ("Tennessee", "TN"), ("Texas", "TX"), ("Utah", "UT"),
   ("Vermont", "VT"), ("Virginia", "VA"), ("Washington", "WA"), ("West Virginia", "WV"),
   ("Wisconsin", "WI"), ("Wyoming", "WY"), ("District of Columbia", "DC")]

def STATE_CODES : List String := STATE_NAME_TO_CODE.map Prod.snd

def isStateCode (s : String) : Bool := memStr s STATE_CODES

/-- Association-list lookup used for `STATE_NAME_TO_CODE.get` /
`.map(STATE_NAME_TO_CODE)` (case-sensitive exact match). -/
def lookupCode : List (String × String) → String → Option String
  | [], _ => none
  | (n, c) :: rest, t => if t = n then some c else lookupCode rest t

/-! ### The record type

One row of the raw/cleaned jobs table.  Fields not touched by any modelled
stage (company, posted_date, search_query, ...) are represented by the single
payload field `title`.  `scraped_at` is modelled as a rational timestamp
(the scraped_at column is a non-null datetime used only for ordering). -/

structure Posting where
  job_id : Option String
  source : Option String
  title : Option String
  location : Option String
  salary_text : Option String
  salary_min : Option ℚ
  salary_max : Option ℚ
  job_type : Option String
  search_location : Option String
  scraped_at : ℚ
  location_city : Option String := none
  location_state : Option String := none
deriving DecidableEq, Repr

/-! ### Field Normalizer: empty-value canonicalization (lines 39-43)

`df.replace([r"^\s*$", r"(?i)^null$", r"(?i)^none$", r"(?i)^nan$"], np.nan,
regex=True)`: a cell becomes NaN when one of the anchored patterns matches
under `re.search`.  `^` anchors at the string start, and Python's `$`
matches at the end of the string or just before a single newline that ends
the string.  Hence `^\s*$` matches exactly the all-whitespace strings, and
the token patterns match the exact strings "null"/"none"/"nan"
case-insensitively, optionally followed by one final newline; any other
surrounding whitespace defeats the anchors. -/

/-- Remove one newline at the end of the string, if present: the positions
where Python's `$` can match are the end of this stripped string. -/
def stripFinalNewline (s : String) : String :=
  match s.data.reverse with
  | c :: rest => if c = '\n' then String.mk rest.reverse else s
  | [] => s

def pandasNullToken (s : String) : Bool :=
  s.data.all isWs || strLower (stripFinalNewline s) = "null"
    || strLower (stripFinalNewline s) = "none"
    || strLower (stripFinalNewline s) = "nan"

def cleanEmptyValue : Option String → Option String
  | none => none
  | some s => if pandasNullToken s then none else some s

/-- Row-wise effect of `clean_empty_values` on the string columns present in
the raw table (numeric columns are unaffected by a regex replace). -/
def clean_empty_values_rec (r : Posting) : Posting :=
  { r with
    job_id := cleanEmptyValue r.job_id
    source := cleanEmptyValue r.source
    title := cleanEmptyValue r.title
    location := cleanEmptyValue r.location
    salary_text := cleanEmptyValue r.salary_text
    job_type := cleanEmptyValue r.job_type
    search_location := cleanEmptyValue r.search_location }

def clean_empty_values (df : List Posting) : List Posting := df.map clean_empty_values_rec

/-! ### Field Normalizer: location resolution (lines 54-87) -/

/-- `location_city`: the part of `location` before the first comma
(untrimmed), or NaN when `location` is NaN. -/
def cityOf (loc : Option String) : Option String :=
  match loc with
  | none => none
  | some s => some (String.mk (splitCommaAux [] s.data).1)

/-- `location2` after line 59: remainder after the first comma, stripped;
absent when there is no comma or `location` is NaN. -/
def remainderOf (loc : Option String) : Option String :=
  match loc with
  | none => none
  | some s =>
    match (splitCommaAux [] s.data).2 with
    | none => none
    | some cs => some (strTrim (String.mk cs))

/-- The np.where shape shared by lines 61-65 and 78-83: strip, upper-case,
and keep the value when it is a known state code. -/
def stateFromCode (x : Option String) : Option String :=
  match x with
  | some t => if isStateCode (strUpper (strTrim t)) then some (strUpper (strTrim t)) else none
  | none => none

/-- Lines 69-76: a full state name (case-sensitive, no ',' or '|' allowed)
mapped to its code. -/
def stateFromName (x : Option String) : Option String :=
  match x with
  | some t =>
    if !(t.data.any (fun c => c = ',' || c = '|')) then lookupCode STATE_NAME_TO_CODE t
    else none
  | none => none

/-- `location_state` as a function of the `(location, search_location)` pair:
the np.where / mask cascade of `clean_location` evaluated row-wise. -/
def locationStateOf (loc sl : Option String) : Option String :=
  let rem := remainderOf loc
  -- lines 61-65: remainder stripped + upper-cased is a known state code
  let st1 := stateFromCode rem
  -- line 67: location_else is the remainder only where no state was found
  let lelse : Option String := if st1.isSome then none else rem
  -- lines 69-76: full state name, if no ',' or '|' present
  let st2 : Option String :=
    match st1 with
    | some c => some c
    | none => stateFromName lelse
  -- lines 78-83: fall back to search_location when it is a state code
  match st2 with
  | some c => some c
  | none => stateFromCode sl

def clean_location_rec (r : Posting) : Posting :=
  { r with
    location_city := cityOf r.location
    location_state := locationStateOf r.location r.search_location }

def clean_location (df : List Posting) : List Posting := df.map clean_location_rec

/-! ### Field Normalizer: job-type canonicalization (lines 90-116) -/

def clean_mappings : List (String × List String) :=
  [("Full-time", ["full-time", "full time", "fulltime", "ft", "permanent"]),
   ("Part-time", ["part-time", "part time", "parttime", "pt"]),
   ("Contract", ["contract", "contractor", "contractual"]),
   ("Temporary", ["temporary", "temp"]),
   ("Internship", ["internship", "intern"])]

def findCategory (lv : String) : List (String × List String) → Option String
  | [] => none
  | (cat, pats) :: rest =>
    if pats.any (fun p => strContainsSub lv p) then some cat else findCategory lv rest

def extractType (v : Option String) : Option String :=
  match v with
  | none => none
  | some s => findCategory (strLower s) clean_mappings

def extract_job_type_clean_rec (r : Posting) : Posting :=
  { r with job_type := extractType r.job_type }

def extract_job_type_clean (df : List Posting) : List Posting :=
  df.map extract_job_type_clean_rec

/-! ### Salary Unit Corrector (lines 119-178)

Each rate rule: when the textual cue occurs in `salary_text`
(case-insensitive, NaN rows excluded by `na=False`) and `salary_min` is
present and below the plausibility threshold, both bounds are scaled by the
factor (a NaN `salary_max` stays NaN: NaN * factor = NaN). -/

def applyRateFix (cue : String → Bool) (thresh factor : ℚ) (r : Posting) : Posting :=
  match r.salary_text with
  | none => r
  | some t =>
    if cue t then
      match r.salary_min with
      | some mn =>
        if mn < thresh then
          { r with salary_min := some (mn * factor), salary_max := r.salary_max.map (· * factor) }
        else r
      | none => r
    else r

def cueK (t : String) : Bool := containsCI t "k"

def cueHourly (t : String) : Bool :=
  containsCI t "per hour" || containsCI t "/hour" || containsCI t "an hour"

def cueMonthly (t : String) : Bool :=
  containsCI t "per month" || containsCI t "/month" || containsCI t "a month"

def cueWeekly (t : String) : Bool :=
  containsCI t "per week" || containsCI t "/week" || containsCI t "a week"

def cuePerUnit (t : String) : Bool := containsCI t "per unit"

/-- `fix_k_notation` in the source (renamed here): k-notation rule. -/
def fix_k_values (df : List Posting) : List Posting :=
  df.map (applyRateFix cueK 1000 1000)

def fix_hourly_wages (df : List Posting) : List Posting :=
  df.map (applyRateFix cueHourly 200 2080)

def fix_monthly_wages (df : List Posting) : List Posting :=
  df.map (applyRateFix cueMonthly 20000 12)

def fix_weekly_wages (df : List Posting) : List Posting :=
  df.map (applyRateFix cueWeekly 5000 52)

def hasPerUnit (r : Posting) : Bool :=
  match r.salary_text with
  | some t => cuePerUnit t
  | none => false

def drop_per_unit_wages (df : List Posting) : List Posting :=
  df.filter (fun r => !(hasPerUnit r))

/-- The Salary Unit Corrector stage: the rule chain exactly as sequenced in
`run_full_cleaning` (lines 216-220). -/
def salaryCorrector (df : List Posting) : List Posting :=
  drop_per_unit_wages (fix_weekly_wages (fix_monthly_wages (fix_hourly_wages (fix_k_values df))))

/-! ### Salary Imputer (lines 181-205) -/

/-- Per-source spread samples: `salary_max - salary_min` over the rows where
both bounds are present, for one `source` group (`groupby` drops NaN keys). -/
def spreadsFor (df : List Posting) (s : String) : List ℚ :=
  df.filterMap (fun r =>
    match r.source, r.salary_min, r.salary_max with
    | some s', some mn, some mx => if s' = s then some (mx - mn) else none
    | _, _, _ => none)

def insertAscQ (x : ℚ) : List ℚ → List ℚ
  | [] => [x]
  | y :: ys => if x ≤ y then x :: y :: ys else y :: insertAscQ x ys

def sortAscQ (l : List ℚ) : List ℚ := l.foldr insertAscQ []

/-- pandas median: middle element of the sorted list, or the mean of the two
middle elements for an even count. -/
def medianQ (l : List ℚ) : ℚ :=
  let s := sortAscQ l
  let n := s.length
  if n % 2 = 1 then s.getD (n / 2) 0
  else (s.getD (n / 2 - 1) 0 + s.getD (n / 2) 0) / 2

/-- `median_spreads.get(source, 10000)` for a string source: the learned
median spread when the source has both-bounds rows, else the default. -/
def medianSpread (df : List Posting) (s : String) : ℚ :=
  let l := spreadsFor df s
  if l.isEmpty then 10000 else medianQ l

/-- Spread for the group key used in the imputation loop; a NaN key has no
dict entry, so `.get` yields the default (irrelevant: its mask is empty). -/
def srcSpread (df : List Posting) : Option String → ℚ
  | none => 10000
  | some s => medianSpread df s

/-- pandas `==` comparison against the loop's `source` value: NaN compares
unequal to everything, including NaN. -/
def pandasEqOpt (a b : Option String) : Bool :=
  match a, b with
  | some x, some y => x = y
  | _, _ => false

/-- One iteration of the source loop (lines 193-203) acting on one row: rows
of this source with only `salary_min` present get
`salary_max = salary_min + spread` (or `salary_min` when the spread is 0).
The `only_min` mask is evaluated per-row; this matches the source, which
precomputes it, because each row is modified by at most its own source's
iteration. -/
def imputeForSource (df : List Posting) (s : Option String) (r : Posting) : Posting :=
  if pandasEqOpt r.source s then
    match r.salary_min, r.salary_max with
    | some mn, none =>
      { r with salary_max := some (if srcSpread df s = 0 then mn else mn + srcSpread df s) }
    | _, _ => r
  else r

/-- `df['source'].unique()`: distinct values in first-occurrence order,
NaN included. -/
def uniqueAux (seen : List (Option String)) : List (Option String) → List (Option String)
  | [] => []
  | k :: ks => if keySeen k seen then uniqueAux seen ks else k :: uniqueAux (k :: seen) ks

def uniqueSources (df : List Posting) : List (Option String) :=
  uniqueAux [] (df.map (fun r => r.source))

def impute_missing_max_by_source (df : List Posting) : List Posting :=
  (uniqueSources df).foldl (fun acc s => acc.map (imputeForSource df s)) df

/-! ### Finalizer (lines 208-249) -/

/-- `run_full_cleaning`: the full per-run transformation of the raw table.
The `cols_to_drop` loop removes columns that are not part of the modelled
record, so it has no counterpart here. -/
def run_full_cleaning (df : List Posting) : List Posting :=
  let df1 := clean_empty_values df
  let df2 := clean_location df1
  let df3 := extract_job_type_clean df2
  let df4 := salaryCorrector df3
  let df5 := impute_missing_max_by_source df4
  -- line 229: df.dropna(subset=['location_state'])
  let df6 := df5.filter (fun r => r.location_state.isSome)
  -- lines 231-233: drop the Muse rows when any are present
  if df6.any (fun r => r.source = some "Muse") then
    df6.filter (fun r => !(r.source = some "Muse"))
  else df6

def insertDesc (x : Posting) : List Posting → List Posting
  | [] => [x]
  | y :: ys => if y.scraped_at ≤ x.scraped_at then x :: y :: ys else y :: insertDesc x ys

/-- `df.sort_values('scraped_at', ascending=False)`. -/
def sortDescScraped (l : List Posting) : List Posting := l.foldr insertDesc []

/-- `df.drop_duplicates(subset=['job_id'], keep='first')`: keep the first row
of each `job_id` key (NaN keys form one group, as in pandas). -/
def dedupFirstAux (seen : List (Option String)) : List Posting → List Posting
  | [] => []
  | r :: rs =>
    if keySeen r.job_id seen then dedupFirstAux seen rs
    else r :: dedupFirstAux (r.job_id :: seen) rs

def dedupFirstByJobId (l : List Posting) : List Posting := dedupFirstAux [] l

/-- The dataset published to `cleaned_jobs` by `clean_and_load` (lines
238-249): full cleaning, then latest-wins dedup by `job_id`. -/
def clean_and_load (df : List Posting) : List Posting :=
  dedupFirstByJobId (sortDescScraped (run_full_cleaning df))

/-! ### Incremental Loader (job_collection_dag.py, `load_raw_to_db`,
lines 123-182) -/

structure LoadState where
  ledger : List String
  store : List Posting
  loaded : Nat
  skipped : Nat
deriving DecidableEq, Repr

/-- `isin(existing_set)` on one `job_id` key: a NaN id matches nothing
(the ledger is read from the string `job_id` column). -/
def keyInLedger (ledger : List String) : Option String → Bool
  | some j => memStr j ledger
  | none => false

def jobIdInLedger (ledger : List String) (r : Posting) : Bool :=
  keyInLedger ledger r.job_id

/-- Line 164: `df[~df['job_id'].isin(existing_set)]`. -/
def ledgerFilter (ledger : List String) (b : List Posting) : List Posting :=
  b.filter (fun r => !(jobIdInLedger ledger r))

/-- `'job_id' in df.columns` for a DataFrame built from a list of JSON
records: the column exists when some record carries the key. -/
def batchHasJobIdColumn (b : List Posting) : Bool := b.any (fun r => r.job_id.isSome)

/-- Distinct `job_id` values of a store / the ids carried by a batch. -/
def storeIds (s : List Posting) : List String := s.filterMap (fun r => r.job_id)

/-- One iteration of the loader's file loop (lines 150-180): skip empty
batches and batches without the id column; filter against the in-memory
ledger, counting the removed rows as skipped; dedupe within the batch
(first occurrence wins, uncounted); extend the ledger, then append to the
store when the insert succeeds (`writeOk`; the ledger update precedes the
insert in the source, so it happens even on a failed write). -/
def processBatch (st : LoadState) (b : List Posting) (writeOk : Bool) : LoadState :=
  if b.isEmpty then st
  else if !(batchHasJobIdColumn b) then st
  else
    let kept := ledgerFilter st.ledger b
    let skipped := b.length - kept.length
    if kept.isEmpty then { st with skipped := st.skipped + skipped }
    else
      let deduped := dedupFirstByJobId kept
      let ledger2 := st.ledger ++ storeIds deduped
      if writeOk then
        { ledger := ledger2, store := st.store ++ deduped,
          loaded := st.loaded + deduped.length, skipped := st.skipped + skipped }
      else
        { ledger := ledger2, store := st.store,
          loaded := st.loaded, skipped := st.skipped + skipped }

/-- The whole loader run: ledger read once from the store, then the batch
loop; each batch comes with the success flag of its insert. -/
def load_raw_to_db (store0 : List Posting) (batches : List (List Posting × Bool)) : LoadState :=
  batches.foldl (fun st p => processBatch st p.1 p.2)
    { ledger := storeIds store0, store := store0, loaded := 0, skipped := 0 }

/-! ### Specification-side definitions (for refinement statements)

These transcribe the spec's/claims' wording, to be compared with the
definitions embedded from the source above. -/

/-- Spec wording of the loader's per-batch acceptance: a record is accepted
iff its `job_id` is neither in the ledger nor equal to the `job_id` of an
earlier record of the same batch (first occurrence wins).  `seen` carries
the ids of the records already scanned. -/
def claimAccept (L : List String) (seen : List (Option String)) : List Posting → List Posting
  | [] => []
  | r :: rs =>
    if keyInLedger L r.job_id || keySeen r.job_id seen then claimAccept L (r.job_id :: seen) rs
    else r :: claimAccept L (r.job_id :: seen) rs

/-- Spec wording of the Salary Unit Corrector as a single per-record pass:
apply the k-notation, hourly, monthly and weekly guards independently in
this order on the current values, and drop the record entirely when its
`salary_text` mentions per-unit pay. -/
def claimSalaryStep (r : Posting) : Option Posting :=
  if hasPerUnit r then none
  else some (applyRateFix cueWeekly 5000 52 (applyRateFix cueMonthly 20000 12
    (applyRateFix cueHourly 200 2080 (applyRateFix cueK 1000 1000 r))))

/-- Spec wording of the Salary Imputer as a per-record map: a record with a
source, `salary_min` present and `salary_max` absent gets
`salary_max = salary_min + spread` for its source's learned median spread
(default 10000 when the source has no fully-bounded records), or
`salary_max = salary_min` when the spread is exactly zero; every other
record is unchanged. -/
def imputedMax (df : List Posting) (s : String) (mn : ℚ) : ℚ :=
  if medianSpread df s = 0 then mn else mn + medianSpread df s

def imputeSpecFn (df : List Posting) (r : Posting) : Posting :=
  match r.source, r.salary_min, r.salary_max with
  | some s, some mn, none => { r with salary_max := some (imputedMax df s mn) }
  | _, _, _ => r

/-! ### Sample records for concrete instances -/

def basePosting : Posting :=
  { job_id := none, source := none, title := none, location := none,
    salary_text := none, salary_min := none, salary_max := none,
    job_type := none, search_location := none, scraped_at := 0 }

/-- The spec's k-notation example record. -/
def kExample : Posting :=
  { basePosting with salary_text := some "$100k - $130k a year",
                     salary_min := some 100, salary_max := some 130 }

/-- The spec's hourly example record. -/
def hourlyExample : Posting :=
  { basePosting with salary_text := some "$25 per hour", salary_min := some 25 }

/-- The expected corrector outputs on the two spec examples. -/
def kExampleOut : Posting :=
  { kExample with salary_min := some 100000, salary_max := some 130000 }

def hourlyExampleOut : Posting := { hourlyExample with salary_min := some 52000 }

/-- A fully-bounded record of source "X" whose spread is 15000. -/
def spreadRec : Posting :=
  { basePosting with source := some "X", salary_min := some 10000, salary_max := some 25000 }

/-- A source-"X" record carrying only `salary_min = 80000`. -/
def onlyMin80 : Posting := { basePosting with source := some "X", salary_min := some 80000 }

/-- Imputation example input: source "X" with a learned spread of 15000 and
a record carrying only `salary_min = 80000`. -/
def imputeExampleDf : List Posting := [spreadRec, onlyMin80]

def onlyMin80Out : Posting := { onlyMin80 with salary_max := some 95000 }

/-- A source-"X" record carrying only a minimum, and its default-spread
imputation. -/
def onlyMinX : Posting := { basePosting with source := some "X", salary_min := some 5 }

def onlyMinXOut : Posting := { onlyMinX with salary_max := some 10005 }

/-- A record with an absent source and only `salary_min` present. -/
def noSourceOnlyMin : Posting := { basePosting with salary_min := some 100 }

/-- Two loader records sharing one `job_id` within a batch. -/
def dupA : Posting := { basePosting with job_id := some "a", title := some "first" }

def dupB : Posting := { basePosting with job_id := some "a", title := some "second" }

/-- A loader record with a fresh id, for witnesses. -/
def freshB : Posting := { basePosting with job_id := some "b", title := some "fresh" }

/-- Finalizer sample: same `job_id` scraped on two days, plus a Muse row. -/
def finalOld : Posting :=
  { basePosting with job_id := some "j", location := some "Houston, TX",
                     source := some "S", scraped_at := 1, title := some "old" }

def finalNew : Posting :=
  { basePosting with job_id := some "j", location := some "Houston, TX",
                     source := some "S", scraped_at := 3, title := some "new" }

def museRow : Posting :=
  { basePosting with job_id := some "m", location := some "Houston, TX",
                     source := some "Muse", scraped_at := 2 }

/-- The two sample scrapes after the cleaning run. -/
def cleanedOld : Posting :=
  { finalOld with location_city := some "Houston", location_state := some "TX" }

def cleanedNew : Posting :=
  { finalNew with location_city := some "Houston", location_state := some "TX" }

/-- A loader state with nothing ingested yet. -/
def emptyLoad : LoadState := { ledger := [], store := [], loaded := 0, skipped := 0 }

/-- The loader's starting state: ledger read once from the store
(lines 142-143). -/
def initState (s : List Posting) : LoadState :=
  { ledger := storeIds s, store := s, loaded := 0, skipped := 0 }

/-- The starting state of a second loader run over the store produced by a
first run on batch `b`: the ledger is re-read from the updated store. -/
def rerunState (s b : List Posting) : LoadState :=
  { ledger := storeIds (processBatch (initState s) b true).store,
    store := (processBatch (initState s) b true).store, loaded := 0, skipped := 0 }

/-! ## Lemmas: membership helpers -/

lemma keySeen_iff {k : Option String} {seen : List (Option String)} :
    keySeen k seen = true ↔ k ∈ seen := by
  simp [keySeen, List.any_eq_true]

lemma memStr_iff {j : String} {l : List String} : memStr j l = true ↔ j ∈ l := by
  simp [memStr, List.any_eq_true]

lemma storeIds_append (a b : List Posting) : storeIds (a ++ b) = storeIds a ++ storeIds b := by
  simp [storeIds]

lemma mem_storeIds {j : String} {l : List Posting} :
    j ∈ storeIds l ↔ ∃ r ∈ l, r.job_id = some j := by
  simp [storeIds, List.mem_filterMap]

/-! ## Lemmas: first-occurrence dedup (`drop_duplicates(keep='first')`) -/

lemma mem_dedupFirstAux {seen : List (Option String)} {l : List Posting} {r : Posting}
    (h : r ∈ dedupFirstAux seen l) : r ∈ l := by
  induction l generalizing seen with
  | nil => simp [dedupFirstAux] at h
  | cons x xs ih =>
    by_cases hx : keySeen x.job_id seen = true
    · simp only [dedupFirstAux, hx, if_true] at h
      exact List.mem_cons_of_mem _ (ih h)
    · simp only [dedupFirstAux, hx, Bool.false_eq_true, if_false, List.mem_cons] at h
      rcases h with rfl | h
      · exact List.mem_cons_self _ _
      · exact List.mem_cons_of_mem _ (ih h)

lemma dedupFirstAux_key_not_seen {seen : List (Option String)} {l : List Posting} {r : Posting}
    (h : r ∈ dedupFirstAux seen l) : r.job_id ∉ seen := by
  induction l generalizing seen with
  | nil => simp [dedupFirstAux] at h
  | cons x xs ih =>
    by_cases hx : keySeen x.job_id seen = true
    · simp only [dedupFirstAux, hx, if_true] at h
      exact ih h
    · simp only [dedupFirstAux, hx, Bool.false_eq_true, if_false, List.mem_cons] at h
      rcases h with rfl | h
      · exact fun hc => hx (keySeen_iff.mpr hc)
      · exact fun hc => (ih h) (List.mem_cons_of_mem _ hc)

lemma dedupFirstAux_repr {seen : List (Option String)} {l : List Posting} {r : Posting}
    (h : r ∈ l) (hs : r.job_id ∉ seen) :
    ∃ r' ∈ dedupFirstAux seen l, r'.job_id = r.job_id := by
  induction l generalizing seen with
  | nil => cases h
  | cons x xs ih =>
    by_cases hx : keySeen x.job_id seen = true
    · rcases List.mem_cons.mp h with rfl | h
      · exact absurd (keySeen_iff.mp hx) hs
      · simp only [dedupFirstAux, hx, if_true]
        exact ih h hs
    · by_cases hk : r.job_id = x.job_id
      · refine ⟨x, ?_, hk.symm⟩
        simp [dedupFirstAux, hx]
      · rcases List.mem_cons.mp h with rfl | h
        · exact absurd rfl hk
        · have hs' : r.job_id ∉ x.job_id :: seen := by
            simp only [List.mem_cons]
            rintro (hc | hc)
            · exact hk hc
            · exact hs hc
          obtain ⟨r', hr', he⟩ := ih h hs'
          refine ⟨r', ?_, he⟩
          simp only [dedupFirstAux, hx, Bool.false_eq_true, if_false, List.mem_cons]
          exact Or.inr hr'

lemma dedupFirstAux_keys_nodup (seen : List (Option String)) (l : List Posting) :
    ((dedupFirstAux seen l).map (fun r => r.job_id)).Nodup := by
  induction l generalizing seen with
  | nil => simp [dedupFirstAux]
  | cons x xs ih =>
    by_cases hx : keySeen x.job_id seen = true
    · simpa only [dedupFirstAux, hx, if_true] using ih seen
    · simp only [dedupFirstAux, hx, Bool.false_eq_true, if_false, List.map_cons,
        List.nodup_cons]
      refine ⟨?_, ih _⟩
      intro hmem
      obtain ⟨r', hr', he⟩ := List.mem_map.mp hmem
      have := dedupFirstAux_key_not_seen hr'
      exact this (he ▸ List.mem_cons_self _ _)

lemma dedupFirstAux_first_max {l : List Posting}
    (hp : l.Pairwise (fun a b => b.scraped_at ≤ a.scraped_at)) :
    ∀ {seen : List (Option String)} {r' r : Posting},
      r' ∈ dedupFirstAux seen l → r ∈ l → r.job_id = r'.job_id → r.job_id ∉ seen →
      r.scraped_at ≤ r'.scraped_at := by
  induction l with
  | nil => intro _ _ _ _ h _ _; cases h
  | cons x xs ih =>
    intro seen r' r h' h hk hs
    rcases List.pairwise_cons.mp hp with ⟨hx_all, hp'⟩
    by_cases hx : keySeen x.job_id seen = true
    · simp only [dedupFirstAux, hx, if_true] at h'
      rcases List.mem_cons.mp h with rfl | h
      · exact absurd (keySeen_iff.mp hx) hs
      · exact ih hp' h' h hk hs
    · simp only [dedupFirstAux, hx, Bool.false_eq_true, if_false, List.mem_cons] at h'
      rcases h' with rfl | h'
      · rcases List.mem_cons.mp h with rfl | h
        · exact le_refl _
        · exact hx_all r h
      · have hnot := dedupFirstAux_key_not_seen h'
        rcases List.mem_cons.mp h with rfl | h
        · exact absurd (hk ▸ List.mem_cons_self r.job_id seen : r'.job_id ∈ r.job_id :: seen)
            (by exact hk ▸ hnot)
        · have hs' : r.job_id ∉ x.job_id :: seen := by
            simp only [List.mem_cons]
            rintro (hc | hc)
            · exact (hk ▸ hnot) (hc ▸ List.mem_cons_self _ _)
            · exact hs hc
          exact ih hp' h' h hk hs'

/-! ## Lemmas: descending sort by `scraped_at` -/

lemma sortDescScraped_cons (y : Posting) (ys : List Posting) :
    sortDescScraped (y :: ys) = insertDesc y (sortDescScraped ys) := rfl

lemma mem_insertDesc {x y : Posting} {l : List Posting} :
    x ∈ insertDesc y l ↔ x = y ∨ x ∈ l := by
  induction l with
  | nil => simp [insertDesc]
  | cons z zs ih =>
    by_cases h : z.scraped_at ≤ y.scraped_at
    · simp [insertDesc, h]
    · simp [insertDesc, h, ih]
      tauto

lemma pairwise_insertDesc {x : Posting} {l : List Posting}
    (hp : l.Pairwise (fun a b => b.scraped_at ≤ a.scraped_at)) :
    (insertDesc x l).Pairwise (fun a b => b.scraped_at ≤ a.scraped_at) := by
  induction l with
  | nil => simp [insertDesc]
  | cons z zs ih =>
    rcases List.pairwise_cons.mp hp with ⟨hz, hp'⟩
    by_cases h : z.scraped_at ≤ x.scraped_at
    · simp only [insertDesc, h, if_true]
      refine List.pairwise_cons.mpr ⟨?_, hp⟩
      intro b hb
      rcases List.mem_cons.mp hb with rfl | hb
      · exact h
      · exact le_trans (hz b hb) h
    · simp only [insertDesc, h, if_false]
      refine List.pairwise_cons.mpr ⟨?_, ih hp'⟩
      intro b hb
      rcases mem_insertDesc.mp hb with rfl | hb
      · exact le_of_lt (lt_of_not_le h)
      · exact hz b hb

lemma mem_sortDescScraped {x : Posting} {l : List Posting} :
    x ∈ sortDescScraped l ↔ x ∈ l := by
  induction l with
  | nil => simp [sortDescScraped]
  | cons y ys ih => simp [sortDescScraped_cons, mem_insertDesc, ih]

lemma pairwise_sortDescScraped (l : List Posting) :
    (sortDescScraped l).Pairwise (fun a b => b.scraped_at ≤ a.scraped_at) := by
  induction l with
  | nil => simp [sortDescScraped]
  | cons y ys ih => exact sortDescScraped_cons y ys ▸ pairwise_insertDesc ih

/-! ## Lemmas: the loader's acceptance refines the spec's wording -/

lemma dedup_filter_eq_claimAccept {L : List String} :
    ∀ (b : List Posting) (seen1 seen2 : List (Option String)),
    (∀ k, k ∈ seen2 ↔ (k ∈ seen1 ∧ keyInLedger L k = false)) →
    dedupFirstAux seen2 (ledgerFilter L b) = claimAccept L seen1 b := by
  intro b
  induction b with
  | nil => intro _ _ _; simp [ledgerFilter, dedupFirstAux, claimAccept]
  | cons r rs ih =>
    intro seen1 seen2 hinv
    by_cases hl : keyInLedger L r.job_id = true
    · have hfil : ledgerFilter L (r :: rs) = ledgerFilter L rs := by
        simp [ledgerFilter, jobIdInLedger, hl]
      have hcl : claimAccept L seen1 (r :: rs) = claimAccept L (r.job_id :: seen1) rs := by
        simp [claimAccept, hl]
      rw [hfil, hcl]
      refine ih _ _ (fun k => ?_)
      constructor
      · intro hk
        obtain ⟨h1, h2⟩ := (hinv k).mp hk
        exact ⟨List.mem_cons_of_mem _ h1, h2⟩
      · rintro ⟨hk1, hk2⟩
        rcases List.mem_cons.mp hk1 with rfl | hk1
        · rw [hl] at hk2; cases hk2
        · exact (hinv k).mpr ⟨hk1, hk2⟩
    · have hl' : keyInLedger L r.job_id = false := by
        cases hll : keyInLedger L r.job_id
        · rfl
        · exact absurd hll hl
      have hfil : ledgerFilter L (r :: rs) = r :: ledgerFilter L rs := by
        simp [ledgerFilter, jobIdInLedger, hl']
      rw [hfil]
      by_cases hseen : r.job_id ∈ seen1
      · have hs2 : r.job_id ∈ seen2 := (hinv _).mpr ⟨hseen, hl'⟩
        have hcode : dedupFirstAux seen2 (r :: ledgerFilter L rs)
            = dedupFirstAux seen2 (ledgerFilter L rs) := by
          simp [dedupFirstAux, keySeen_iff.mpr hs2]
        have hcl : claimAccept L seen1 (r :: rs) = claimAccept L (r.job_id :: seen1) rs := by
          simp [claimAccept, hl', keySeen_iff.mpr hseen]
        rw [hcode, hcl]
        refine ih _ _ (fun k => ?_)
        constructor
        · intro hk
          obtain ⟨h1, h2⟩ := (hinv k).mp hk
          exact ⟨List.mem_cons_of_mem _ h1, h2⟩
        · rintro ⟨hk1, hk2⟩
          rcases List.mem_cons.mp hk1 with rfl | hk1
          · exact hs2
          · exact (hinv k).mpr ⟨hk1, hk2⟩
      · have hs2 : r.job_id ∉ seen2 := fun hk => hseen ((hinv _).mp hk).1
        have hks2 : keySeen r.job_id seen2 = false := by
          cases hkk : keySeen r.job_id seen2
          · rfl
          · exact absurd (keySeen_iff.mp hkk) hs2
        have hks1 : keySeen r.job_id seen1 = false := by
          cases hkk : keySeen r.job_id seen1
          · rfl
          · exact absurd (keySeen_iff.mp hkk) hseen
        have hcode : dedupFirstAux seen2 (r :: ledgerFilter L rs)
            = r :: dedupFirstAux (r.job_id :: seen2) (ledgerFilter L rs) := by
          simp [dedupFirstAux, hks2]
        have hcl : claimAccept L seen1 (r :: rs)
            = r :: claimAccept L (r.job_id :: seen1) rs := by
          simp [claimAccept, hl', hks1]
        rw [hcode, hcl]
        congr 1
        refine ih _ _ (fun k => ?_)
        constructor
        · intro hk
          rcases List.mem_cons.mp hk with rfl | hk
          · exact ⟨List.mem_cons_self _ _, hl'⟩
          · obtain ⟨h1, h2⟩ := (hinv k).mp hk
            exact ⟨List.mem_cons_of_mem _ h1, h2⟩
        · rintro ⟨hk1, hk2⟩
          rcases List.mem_cons.mp hk1 with rfl | hk1
          · exact List.mem_cons_self _ _
          · exact List.mem_cons_of_mem _ ((hinv k).mpr ⟨hk1, hk2⟩)

/-- Top-level form: the code's ledger-filter followed by first-occurrence
dedup computes exactly the spec-worded acceptance list. -/
lemma dedupFilter_eq_claimAccept_nil (L : List String) (b : List Posting) :
    dedupFirstByJobId (ledgerFilter L b) = claimAccept L [] b := by
  refine dedup_filter_eq_claimAccept b [] [] (fun k => ?_)
  simp

/-! ## Lemmas: the imputation loop is a per-record map -/

lemma foldl_map_comm (g : Option String → Posting → Posting) :
    ∀ (srcs : List (Option String)) (df : List Posting),
    srcs.foldl (fun acc s => acc.map (g s)) df
      = df.map (fun r => srcs.foldl (fun r s => g s r) r) := by
  intro srcs
  induction srcs with
  | nil => intro df; simp
  | cons s ss ih =>
    intro df
    simp only [List.foldl_cons]
    rw [ih (df.map (g s)), List.map_map]
    rfl

lemma imputeForSource_of_source_none {df : List Posting} {s : Option String} {r : Posting}
    (h : r.source = none) : imputeForSource df s r = r := by
  unfold imputeForSource
  rw [h]
  cases s <;> simp [pandasEqOpt]

lemma imputeForSource_of_filled {df : List Posting} {s : Option String} {r : Posting}
    (h : ¬(r.salary_min.isSome = true ∧ r.salary_max = none)) :
    imputeForSource df s r = r := by
  unfold imputeForSource
  by_cases hp : pandasEqOpt r.source s = true
  · rw [if_pos hp]
    cases hmn : r.salary_min with
    | none => rfl
    | some mn =>
      cases hmx : r.salary_max with
      | none => exact absurd ⟨by rw [hmn]; rfl, hmx⟩ h
      | some mx => rfl
  · rw [if_neg hp]

lemma fold_imputeForSource_of_source_none {df : List Posting} {r : Posting}
    (h : r.source = none) (srcs : List (Option String)) :
    srcs.foldl (fun r s => imputeForSource df s r) r = r := by
  induction srcs with
  | nil => rfl
  | cons s ss ih => simp only [List.foldl_cons, imputeForSource_of_source_none h, ih]

lemma fold_imputeForSource_of_filled {df : List Posting} {r : Posting}
    (h : ¬(r.salary_min.isSome = true ∧ r.salary_max = none)) (srcs : List (Option String)) :
    srcs.foldl (fun r s => imputeForSource df s r) r = r := by
  induction srcs with
  | nil => rfl
  | cons s ss ih => simp only [List.foldl_cons, imputeForSource_of_filled h, ih]

lemma fold_imputeForSource_of_only_min {df : List Posting} {r : Posting} {s : String} {mn : ℚ}
    (hsrc : r.source = some s) (hmn : r.salary_min = some mn) (hmx : r.salary_max = none) :
    ∀ srcs : List (Option String), some s ∈ srcs →
    srcs.foldl (fun r s => imputeForSource df s r) r
      = { r with salary_max := some (imputedMax df s mn) } := by
  intro srcs
  induction srcs with
  | nil => intro h; cases h
  | cons s' ss ih =>
    intro hmem
    by_cases he : s' = some s
    · subst he
      have hstep : imputeForSource df (some s) r
          = { r with salary_max := some (imputedMax df s mn) } := by
        unfold imputeForSource
        rw [hsrc]
        simp only [pandasEqOpt, decide_True, if_true, hmn, hmx]
        rfl
      simp only [List.foldl_cons, hstep]
      refine fold_imputeForSource_of_filled ?_ ss
      rintro ⟨_, hc⟩
      simp at hc
    · have hne : pandasEqOpt r.source s' = false := by
        rw [hsrc]
        cases s' with
        | none => rfl
        | some t =>
          simp only [pandasEqOpt, decide_eq_false_iff_not]
          intro hc
          exact he (by rw [hc])
      have hstep : imputeForSource df s' r = r := by
        unfold imputeForSource
        rw [hne]
        simp
      have hmem' : some s ∈ ss := by
        rcases List.mem_cons.mp hmem with hc | hc
        · exact absurd hc.symm he
        · exact hc
      simp only [List.foldl_cons, hstep]
      exact ih hmem'

lemma uniqueAux_complete {k : Option String} :
    ∀ (l : List (Option String)) (seen : List (Option String)),
    k ∈ l → k ∈ uniqueAux seen l ∨ k ∈ seen := by
  intro l
  induction l with
  | nil => intro _ h; cases h
  | cons x xs ih =>
    intro seen h
    by_cases hx : keySeen x seen = true
    · rcases List.mem_cons.mp h with rfl | h
      · exact Or.inr (keySeen_iff.mp hx)
      · simpa only [uniqueAux, hx, if_true] using ih seen h
    · rcases List.mem_cons.mp h with rfl | h
      · simp [uniqueAux, hx]
      · rcases ih (x :: seen) h with hc | hc
        · left; simp only [uniqueAux, hx, Bool.false_eq_true, if_false, List.mem_cons]
          right; exact hc
        · rcases List.mem_cons.mp hc with rfl | hc
          · left; simp [uniqueAux, hx]
          · exact Or.inr hc

lemma mem_uniqueSources {df : List Posting} {r : Posting} (h : r ∈ df) :
    r.source ∈ uniqueSources df := by
  have hmem : r.source ∈ df.map (fun r => r.source) := List.mem_map.mpr ⟨r, h, rfl⟩
  rcases uniqueAux_complete (df.map (fun r => r.source)) [] hmem with hc | hc
  · exact hc
  · cases hc

lemma imputeSpecFn_of_source_none {df : List Posting} {r : Posting}
    (h : r.source = none) : imputeSpecFn df r = r := by
  unfold imputeSpecFn
  rw [h]

lemma imputeSpecFn_of_min_none {df : List Posting} {r : Posting}
    (h : r.salary_min = none) : imputeSpecFn df r = r := by
  unfold imputeSpecFn
  rw [h]
  cases r.source <;> cases r.salary_max <;> rfl

lemma imputeSpecFn_of_max_some {df : List Posting} {r : Posting} {mx : ℚ}
    (h : r.salary_max = some mx) : imputeSpecFn df r = r := by
  unfold imputeSpecFn
  rw [h]
  cases r.source <;> cases r.salary_min <;> rfl

lemma imputeSpecFn_of_only_min {df : List Posting} {r : Posting} {s : String} {mn : ℚ}
    (hsrc : r.source = some s) (hmn : r.salary_min = some mn) (hmx : r.salary_max = none) :
    imputeSpecFn df r = { r with salary_max := some (imputedMax df s mn) } := by
  unfold imputeSpecFn
  rw [hsrc, hmn, hmx]

/-- The source-loop of `impute_missing_max_by_source` acts as the
spec-worded per-record map. -/
lemma impute_eq_map (df : List Posting) :
    impute_missing_max_by_source df = df.map (imputeSpecFn df) := by
  unfold impute_missing_max_by_source
  rw [foldl_map_comm]
  refine List.map_congr_left (fun r hr => ?_)
  cases hsrc : r.source with
  | none =>
    rw [fold_imputeForSource_of_source_none hsrc, imputeSpecFn_of_source_none hsrc]
  | some s =>
    cases hmn : r.salary_min with
    | none =>
      rw [fold_imputeForSource_of_filled (by rw [hmn]; rintro ⟨h, _⟩; cases h),
        imputeSpecFn_of_min_none hmn]
    | some mn =>
      cases hmx : r.salary_max with
      | some mx =>
        rw [fold_imputeForSource_of_filled (by rw [hmx]; rintro ⟨_, h⟩; cases h),
          imputeSpecFn_of_max_some hmx]
      | none =>
        have hmem : some s ∈ uniqueSources df := hsrc ▸ mem_uniqueSources hr
        rw [fold_imputeForSource_of_only_min hsrc hmn hmx (uniqueSources df) hmem,
          imputeSpecFn_of_only_min hsrc hmn hmx]

lemma imputeSpecFn_state (df : List Posting) (r : Posting) :
    (imputeSpecFn df r).location_state = r.location_state := by
  unfold imputeSpecFn
  cases r.source <;> cases r.salary_min <;> cases r.salary_max <;> rfl

/-! ## Lemmas: the Salary Unit Corrector chain -/

/-- Each rate-fix either leaves the record alone or scales both bounds. -/
lemma applyRateFix_eq_or (cue : String → Bool) (th f : ℚ) (r : Posting) :
    applyRateFix cue th f r = r ∨
    applyRateFix cue th f r
      = { r with salary_min := r.salary_min.map (fun x => x * f),
                 salary_max := r.salary_max.map (fun x => x * f) } := by
  unfold applyRateFix
  cases hmt : r.salary_text with
  | none => exact Or.inl rfl
  | some t =>
    cases hc : cue t with
    | false => exact Or.inl (by simp [hc])
    | true =>
      cases hmn : r.salary_min with
      | none => exact Or.inl (by simp [hc])
      | some mn =>
        by_cases hlt : mn < th
        · right
          simp [hc, hlt]
        · exact Or.inl (by simp [hc, hlt])

lemma applyRateFix_text (cue : String → Bool) (th f : ℚ) (r : Posting) :
    (applyRateFix cue th f r).salary_text = r.salary_text := by
  rcases applyRateFix_eq_or cue th f r with h | h <;> rw [h]

lemma applyRateFix_state (cue : String → Bool) (th f : ℚ) (r : Posting) :
    (applyRateFix cue th f r).location_state = r.location_state := by
  rcases applyRateFix_eq_or cue th f r with h | h <;> rw [h]

lemma hasPerUnit_congr {r r' : Posting} (h : r.salary_text = r'.salary_text) :
    hasPerUnit r = hasPerUnit r' := by
  unfold hasPerUnit
  rw [h]

/-- The corrector's per-record pass: the four rate fixes in order. -/
lemma hasPerUnit_rateChain (r : Posting) :
    hasPerUnit (applyRateFix cueWeekly 5000 52 (applyRateFix cueMonthly 20000 12
      (applyRateFix cueHourly 200 2080 (applyRateFix cueK 1000 1000 r)))) = hasPerUnit r := by
  refine Eq.trans (hasPerUnit_congr ?_) rfl
  rw [applyRateFix_text, applyRateFix_text, applyRateFix_text, applyRateFix_text]

lemma filter_map_eq_filterMap {α : Type} (p : α → Bool) (f : α → α)
    (hp : ∀ a, p (f a) = p a) (l : List α) :
    (l.map f).filter p = l.filterMap (fun a => if p a then some (f a) else none) := by
  induction l with
  | nil => rfl
  | cons x xs ih =>
    simp only [List.map_cons, List.filter_cons, List.filterMap_cons, hp x]
    cases hpx : p x
    · simpa using ih
    · simpa using ih

/-- The corrector chain is the spec-worded single pass. -/
lemma salaryCorrector_eq_filterMap (df : List Posting) :
    salaryCorrector df = df.filterMap claimSalaryStep := by
  unfold salaryCorrector fix_k_values fix_hourly_wages fix_monthly_wages fix_weekly_wages
    drop_per_unit_wages
  rw [List.map_map, List.map_map, List.map_map]
  rw [filter_map_eq_filterMap _ _ (fun a => by
    simp only [Function.comp]
    rw [hasPerUnit_rateChain a])]
  refine List.filterMap_congr (fun a _ => ?_)
  unfold claimSalaryStep
  cases h : hasPerUnit a
  · simp [Function.comp]
  · simp [Function.comp]

/-! ## Lemmas: location-state validity -/

lemma lookupCode_mem_vals :
    ∀ (tbl : List (String × String)) (t c : String),
    lookupCode tbl t = some c → c ∈ tbl.map Prod.snd := by
  intro tbl
  induction tbl with
  | nil => intro t c h; cases h
  | cons p ps ih =>
    intro t c h
    obtain ⟨n, cc⟩ := p
    unfold lookupCode at h
    by_cases ht : t = n
    · rw [if_pos ht] at h
      injection h with h
      subst h
      exact List.mem_cons_self _ _
    · rw [if_neg ht] at h
      exact List.mem_cons_of_mem _ (ih t c h)

lemma isStateCode_mem {s : String} (h : isStateCode s = true) : s ∈ STATE_CODES := by
  exact memStr_iff.mp h

lemma stateFromCode_valid {x : Option String} {c : String}
    (h : stateFromCode x = some c) : c ∈ STATE_CODES := by
  cases x with
  | none => simp [stateFromCode] at h
  | some t =>
    simp only [stateFromCode] at h
    by_cases hc : isStateCode (strUpper (strTrim t)) = true
    · rw [if_pos hc] at h
      injection h with h
      exact h ▸ isStateCode_mem hc
    · rw [if_neg hc] at h
      cases h

lemma stateFromName_valid {x : Option String} {c : String}
    (h : stateFromName x = some c) : c ∈ STATE_CODES := by
  cases x with
  | none => simp [stateFromName] at h
  | some t =>
    simp only [stateFromName] at h
    by_cases hc : (!(t.data.any (fun c => c = ',' || c = '|'))) = true
    · rw [if_pos hc] at h
      exact lookupCode_mem_vals STATE_NAME_TO_CODE t c h
    · rw [if_neg hc] at h
      cases h

lemma locationStateOf_valid {loc sl : Option String} {c : String}
    (h : locationStateOf loc sl = some c) : c ∈ STATE_CODES := by
  unfold locationStateOf at h
  simp only [] at h
  cases h1 : stateFromCode (remainderOf loc) with
  | some c1 =>
    rw [h1] at h
    injection h with h
    exact h ▸ stateFromCode_valid h1
  | none =>
    rw [h1] at h
    simp only [Option.isSome_none, Bool.false_eq_true, if_false] at h
    cases h2 : stateFromName (remainderOf loc) with
    | some c2 =>
      rw [h2] at h
      injection h with h
      exact h ▸ stateFromName_valid h2
    | none =>
      rw [h2] at h
      exact stateFromCode_valid h

lemma clean_location_rec_state (r : Posting) :
    (clean_location_rec r).location_state = locationStateOf r.location r.search_location := rfl

lemma extract_job_type_clean_rec_state (r : Posting) :
    (extract_job_type_clean_rec r).location_state = r.location_state := rfl

/-! ## Lemmas: membership through the full cleaning run -/

lemma mem_salaryCorrector_state {df : List Posting} {r : Posting}
    (h : r ∈ salaryCorrector df) : ∃ r0 ∈ df, r.location_state = r0.location_state := by
  rw [salaryCorrector_eq_filterMap] at h
  obtain ⟨r0, hr0, hstep⟩ := List.mem_filterMap.mp h
  unfold claimSalaryStep at hstep
  by_cases hp : hasPerUnit r0 = true
  · rw [if_pos hp] at hstep
    cases hstep
  · rw [if_neg hp] at hstep
    injection hstep with hstep
    refine ⟨r0, hr0, ?_⟩
    rw [← hstep, applyRateFix_state, applyRateFix_state, applyRateFix_state, applyRateFix_state]

lemma museIf_mem {l : List Posting} {r : Posting}
    (h : r ∈ if l.any (fun x => x.source = some "Muse") then
      l.filter (fun x => !(x.source = some "Muse")) else l) :
    r ∈ l ∧ r.source ≠ some "Muse" := by
  by_cases hm : l.any (fun x => x.source = some "Muse") = true
  · rw [if_pos hm] at h
    have hf := List.mem_filter.mp h
    refine ⟨hf.1, ?_⟩
    simpa using hf.2
  · rw [if_neg hm] at h
    have hm' : l.any (fun x => x.source = some "Muse") = false := by
      cases hv : l.any (fun x => x.source = some "Muse")
      · rfl
      · exact absurd hv hm
    refine ⟨h, ?_⟩
    have := List.any_eq_false.mp hm' r h
    simpa using this

lemma run_full_cleaning_mem {df : List Posting} {r : Posting}
    (h : r ∈ run_full_cleaning df) :
    (∃ c, r.location_state = some c ∧ c ∈ STATE_CODES) ∧ r.source ≠ some "Muse" := by
  unfold run_full_cleaning at h
  simp only [] at h
  obtain ⟨h6, hmuse⟩ := museIf_mem h
  obtain ⟨h5, hsome⟩ := List.mem_filter.mp h6
  rw [impute_eq_map] at h5
  obtain ⟨r4, hr4, heq4⟩ := List.mem_map.mp h5
  obtain ⟨r3, hr3, hstate34⟩ := mem_salaryCorrector_state hr4
  unfold extract_job_type_clean at hr3
  obtain ⟨r2, hr2, heq2⟩ := List.mem_map.mp hr3
  unfold clean_location at hr2
  obtain ⟨r1, _, heq1⟩ := List.mem_map.mp hr2
  have hstate : r.location_state = locationStateOf r1.location r1.search_location := by
    rw [← heq4, imputeSpecFn_state, hstate34, ← heq2, extract_job_type_clean_rec_state,
      ← heq1, clean_location_rec_state]
  cases hc : r.location_state with
  | none => rw [hc] at hsome; cases hsome
  | some c =>
    rw [hc] at hstate
    exact ⟨⟨c, rfl, locationStateOf_valid hstate.symm⟩, hmuse⟩

/-! ## Lemmas: loader batch processing -/

lemma processBatch_skip_empty (st : LoadState) (ok : Bool) :
    processBatch st [] ok = st := by
  simp [processBatch]

lemma processBatch_skip_nocol {st : LoadState} {b : List Posting} (ok : Bool)
    (h : batchHasJobIdColumn b = false) : processBatch st b ok = st := by
  unfold processBatch
  by_cases he : b.isEmpty = true
  · rw [if_pos he]
  · rw [if_neg he, h]
    simp

lemma processBatch_result {st : LoadState} {b : List Posting} (hne : b ≠ [])
    (hcol : batchHasJobIdColumn b = true) :
    (processBatch st b true).store
        = st.store ++ dedupFirstByJobId (ledgerFilter st.ledger b) ∧
    (processBatch st b true).ledger
        = st.ledger ++ storeIds (dedupFirstByJobId (ledgerFilter st.ledger b)) ∧
    (processBatch st b true).loaded
        = st.loaded + (dedupFirstByJobId (ledgerFilter st.ledger b)).length ∧
    (processBatch st b true).skipped
        = st.skipped + (b.length - (ledgerFilter st.ledger b).length) := by
  unfold processBatch
  have he : b.isEmpty = false := by simpa using hne
  rw [he, hcol]
  simp only [Bool.false_eq_true, if_false, Bool.not_true]
  by_cases hk : (ledgerFilter st.ledger b).isEmpty = true
  · have hnil : ledgerFilter st.ledger b = [] := List.isEmpty_iff.mp hk
    rw [hk]
    simp [hnil, dedupFirstByJobId, dedupFirstAux, storeIds]
  · have hk' : (ledgerFilter st.ledger b).isEmpty = false := by
      cases hv : (ledgerFilter st.ledger b).isEmpty
      · rfl
      · exact absurd hv hk
    rw [hk']
    simp

/-! ## Lemmas: whitespace trimming -/

lemma all_ws_iff_trim_empty (s : String) : s.data.all isWs = true ↔ strTrim s = "" := by
  constructor
  · intro h
    have h1 : s.data.dropWhile isWs = [] :=
      List.dropWhile_eq_nil_iff.mpr (fun x hx => List.all_eq_true.mp h x hx)
    unfold strTrim trimChars
    rw [h1]
    rfl
  · intro h
    have h0 : trimChars s.data = [] := congrArg String.data h
    unfold trimChars at h0
    have h1 : (s.data.dropWhile isWs).reverse.dropWhile isWs = [] := by
      simpa [List.reverse_eq_nil_iff] using h0
    have h3 : ∀ x ∈ s.data.dropWhile isWs, isWs x := fun x hx =>
      List.dropWhile_eq_nil_iff.mp h1 x (List.mem_reverse.mpr hx)
    refine List.all_eq_true.mpr (fun x hx => ?_)
    rw [← List.takeWhile_append_dropWhile isWs s.data] at hx
    rcases List.mem_append.mp hx with hx | hx
    · exact List.mem_takeWhile_imp hx
    · exact h3 x hx

lemma pandasNullToken_iff (s : String) :
    pandasNullToken s = true ↔
      (strTrim s = "" ∨ strLower (stripFinalNewline s) = "null" ∨
        strLower (stripFinalNewline s) = "none" ∨
        strLower (stripFinalNewline s) = "nan") := by
  unfold pandasNullToken
  simp only [Bool.or_eq_true, decide_eq_true_eq]
  rw [all_ws_iff_trim_empty]
  tauto

/-! ## Claim theorems

Concrete instances evaluate rational arithmetic by kernel reduction; the
Batteries rational operations are marked irreducible for unification
performance only, so they are locally restored to the default
reducibility. -/

attribute [local semireducible] Rat.mul Rat.add Rat.sub

/-- C1: in every loader run, an empty batch or a batch without the job_id
field is skipped entirely; any other batch contributes to the store exactly
the records whose job_id is neither in the current in-memory ledger nor a
repeat of an earlier record of the same batch (first occurrence wins), and
their identifiers are appended to the ledger before the next batch. -/
theorem C1_loader_batch_acceptance (st : LoadState) (b : List Posting) :
    (b = [] → processBatch st b true = st) ∧
    ((∀ r ∈ b, r.job_id = none) → processBatch st b true = st) ∧
    (b ≠ [] → (∀ r ∈ b, (r.job_id).isSome = true) →
      (processBatch st b true).store = st.store ++ claimAccept st.ledger [] b ∧
      (processBatch st b true).ledger
        = st.ledger ++ storeIds (claimAccept st.ledger [] b)) := by
  refine ⟨?_, ?_, ?_⟩
  · rintro rfl
    exact processBatch_skip_empty st true
  · intro hall
    refine processBatch_skip_nocol true ?_
    refine List.any_eq_false.mpr (fun r hr => ?_)
    rw [hall r hr]
    simp
  · intro hne hall
    have hcol : batchHasJobIdColumn b = true := by
      obtain ⟨r0, hr0⟩ := List.exists_mem_of_ne_nil b hne
      exact List.any_eq_true.mpr ⟨r0, hr0, hall r0 hr0⟩
    obtain ⟨hstore, hledger, _, _⟩ := @processBatch_result st b hne hcol
    rw [← dedupFilter_eq_claimAccept_nil]
    exact ⟨hstore, hledger⟩

/-- Witness for C1 at a concrete state and batch with an in-batch repeat. -/
theorem C1_loader_batch_acceptance_witness :
    (processBatch emptyLoad [dupA, dupB, freshB] true).store
      = [] ++ claimAccept [] [] [dupA, dupB, freshB] :=
  ((C1_loader_batch_acceptance emptyLoad [dupA, dupB, freshB]).2.2
    (by decide) (by decide)).1

/-- C2: the Salary Unit Corrector is the ordered chain k-notation, hourly,
monthly, weekly, per-unit-drop, each guard read off the current values; on
the spec's examples it turns 100/130 with a k-suffixed text into
100000/130000 and 25 with an hourly text into 52000. -/
theorem C2_salary_corrector (df : List Posting) :
    salaryCorrector df = df.filterMap claimSalaryStep ∧
    salaryCorrector [kExample] = [kExampleOut] ∧
    salaryCorrector [hourlyExample] = [hourlyExampleOut] :=
  ⟨salaryCorrector_eq_filterMap df, by decide, by decide⟩

/-- C3: location resolution is a pure function of the pair
(location, search_location), and on the spec's examples it yields TX, CA and
absent respectively. -/
theorem C3_location_resolution :
    (∀ r r' : Posting, r.location = r'.location → r.search_location = r'.search_location →
      (clean_location_rec r).location_state = (clean_location_rec r').location_state) ∧
    locationStateOf (some "Houston, TX") none = some "TX" ∧
    locationStateOf (some "Remote") (some "CA") = some "CA" ∧
    locationStateOf (some "Somewhere Else, Foo") (some "Remote") = none := by
  refine ⟨?_, by decide, by decide, by decide⟩
  intro r r' h1 h2
  rw [clean_location_rec_state, clean_location_rec_state, h1, h2]

/-- Witness for C3's purity part at two concrete records sharing the pair. -/
theorem C3_location_resolution_witness :
    (clean_location_rec finalOld).location_state
      = (clean_location_rec finalNew).location_state :=
  C3_location_resolution.1 finalOld finalNew (by decide) (by decide)

/-- C4 fails as stated: a record with an absent source and only salary_min
present keeps salary_max absent through the imputer, because the source
loop's equality mask never matches a NaN source. -/
theorem C4_counterexample :
    impute_missing_max_by_source [noSourceOnlyMin] = [noSourceOnlyMin] ∧
    noSourceOnlyMin.salary_min = some 100 ∧ noSourceOnlyMin.salary_max = none := by
  decide

/-- C4 amended: after the imputer, every record whose source is present and
whose salary_min is present has salary_max present; records with an absent
source are exempt. -/
theorem C4_amended (df : List Posting) :
    ∀ r ∈ impute_missing_max_by_source df,
      r.source.isSome = true → r.salary_min.isSome = true → r.salary_max.isSome = true := by
  intro r hr hsrc hmn
  rw [impute_eq_map] at hr
  obtain ⟨r0, hr0, rfl⟩ := List.mem_map.mp hr
  cases h1 : r0.source with
  | none =>
    rw [imputeSpecFn_of_source_none h1] at hsrc
    rw [h1] at hsrc
    cases hsrc
  | some s =>
    cases h2 : r0.salary_min with
    | none =>
      rw [imputeSpecFn_of_min_none h2] at hmn
      rw [h2] at hmn
      cases hmn
    | some mn =>
      cases h3 : r0.salary_max with
      | none =>
        rw [imputeSpecFn_of_only_min h1 h2 h3]
        rfl
      | some mx =>
        rw [imputeSpecFn_of_max_some h3, h3]
        rfl

/-- Witness for C4 amended: a sourced record with only the minimum gets the
default spread added. -/
theorem C4_amended_witness : onlyMinXOut.salary_max.isSome = true :=
  C4_amended [onlyMinX] onlyMinXOut (by decide) (by decide) (by decide)

/-- C5: the imputer computes per-source median spreads over fully-bounded
records and fills a missing salary_max as salary_min plus the spread
(salary_min itself for a zero spread, default spread 10000 for a source
without fully-bounded records); with a learned spread of 15000 a record
with salary_min 80000 gets salary_max 95000. -/
theorem C5_imputer (df : List Posting) :
    impute_missing_max_by_source df = df.map (imputeSpecFn df) ∧
    impute_missing_max_by_source imputeExampleDf = [spreadRec, onlyMin80Out] :=
  ⟨impute_eq_map df, by decide⟩

/-- C6: the published cleaned set only contains survivors with a valid
2-letter state, no Muse records, one record per job_id (the one with the
most recent scraped_at among the survivors of that id). -/
theorem C6_finalizer (df : List Posting) :
    (∀ r ∈ clean_and_load df, ∃ c, r.location_state = some c ∧ c ∈ STATE_CODES) ∧
    (∀ r ∈ clean_and_load df, r.source ≠ some "Muse") ∧
    (∀ r ∈ clean_and_load df, r ∈ run_full_cleaning df) ∧
    (∀ r ∈ run_full_cleaning df, ∃ r' ∈ clean_and_load df, r'.job_id = r.job_id) ∧
    ((clean_and_load df).map (fun r => r.job_id)).Nodup ∧
    (∀ r' ∈ clean_and_load df, ∀ r ∈ run_full_cleaning df,
      r.job_id = r'.job_id → r.scraped_at ≤ r'.scraped_at) := by
  have hsub : ∀ r ∈ clean_and_load df, r ∈ run_full_cleaning df := fun r hr =>
    mem_sortDescScraped.mp (mem_dedupFirstAux hr)
  refine ⟨?_, ?_, hsub, ?_, ?_, ?_⟩
  · exact fun r hr => (run_full_cleaning_mem (hsub r hr)).1
  · exact fun r hr => (run_full_cleaning_mem (hsub r hr)).2
  · intro r hr
    exact dedupFirstAux_repr (mem_sortDescScraped.mpr hr) (by simp)
  · exact dedupFirstAux_keys_nodup [] _
  · intro r' hr' r hr hk
    exact dedupFirstAux_first_max (pairwise_sortDescScraped _) hr'
      (mem_sortDescScraped.mpr hr) hk (by simp)

/-- Witness for C6: with two same-id scrapes and a Muse row, the later
scrape dominates the earlier one in the published set. -/
theorem C6_finalizer_witness : cleanedOld.scraped_at ≤ cleanedNew.scraped_at :=
  (C6_finalizer [finalOld, finalNew, museRow]).2.2.2.2.2
    cleanedNew (by decide) cleanedOld (by decide) (by decide)

/-- C7: re-running the loader on the same batch after its accepted records
were written yields zero newly-loaded records. -/
theorem C7_idempotent (s b : List Posting)
    (hall : ∀ r ∈ b, (r.job_id).isSome = true) :
    (processBatch (rerunState s b) b true).loaded = 0 := by
  by_cases hb : b = []
  · subst hb
    rw [processBatch_skip_empty]
    rfl
  · have hcol : batchHasJobIdColumn b = true := by
      obtain ⟨r0, hr0⟩ := List.exists_mem_of_ne_nil b hb
      exact List.any_eq_true.mpr ⟨r0, hr0, hall r0 hr0⟩
    obtain ⟨hstore1, _, _, _⟩ := @processBatch_result (initState s) b hb hcol
    obtain ⟨_, _, hloaded, _⟩ := @processBatch_result (rerunState s b) b hb hcol
    have hinit : (initState s).ledger = storeIds s := rfl
    have hrerun : (rerunState s b).ledger
        = storeIds (processBatch (initState s) b true).store := rfl
    have hnil : ledgerFilter (storeIds (processBatch (initState s) b true).store) b
        = [] := by
      refine List.filter_eq_nil_iff.mpr (fun r hr => ?_)
      obtain ⟨j, hj⟩ := Option.isSome_iff_exists.mp (hall r hr)
      suffices hsuf : jobIdInLedger
          (storeIds (processBatch (initState s) b true).store) r = true by simp [hsuf]
      unfold jobIdInLedger keyInLedger
      rw [hj]
      refine memStr_iff.mpr ?_
      rw [hstore1, hinit, storeIds_append]
      by_cases hin : j ∈ storeIds s
      · exact List.mem_append.mpr (Or.inl hin)
      · refine List.mem_append.mpr (Or.inr ?_)
        have hmemf : memStr j (storeIds s) = false := by
          cases hv : memStr j (storeIds s)
          · rfl
          · exact absurd (memStr_iff.mp hv) hin
        have hkept : r ∈ ledgerFilter (storeIds s) b := by
          refine List.mem_filter.mpr ⟨hr, ?_⟩
          have h2 : jobIdInLedger (storeIds s) r = false := by
            unfold jobIdInLedger keyInLedger
            rw [hj]
            exact hmemf
          simp [h2]
        obtain ⟨r', hr', he⟩ := dedupFirstAux_repr hkept (List.not_mem_nil _)
        exact mem_storeIds.mpr ⟨r', hr', by rw [he, hj]⟩
    rw [hloaded, hrerun, hnil]
    rfl

/-- Witness for C7 on a concrete batch with a repeated id. -/
theorem C7_idempotent_witness :
    (processBatch (rerunState [] [dupA, dupB]) [dupA, dupB] true).loaded = 0 :=
  C7_idempotent [] [dupA, dupB] (by decide)

/-- C8 fails as stated: the replacement regexes are anchored without
allowing surrounding whitespace, so a value whose trimmed content is
"null" but which carries surrounding whitespace is kept, not nulled. -/
theorem C8_counterexample :
    strLower (strTrim " null ") = "null" ∧
    cleanEmptyValue (some " null ") = some " null " := by
  decide

/-- C8 amended: a value is canonicalized to absent iff it is entirely
whitespace, or — after removing at most one newline at its very end, the
only slack Python's `$` anchor allows — case-insensitively equals exactly
"null"/"none"/"nan"; every other value (in particular one with any other
surrounding whitespace, such as a leading or trailing space) is unchanged,
and absent values stay absent. -/
theorem C8_amended (s : String) :
    (cleanEmptyValue (some s) = none ↔
      (strTrim s = "" ∨ strLower (stripFinalNewline s) = "null" ∨
        strLower (stripFinalNewline s) = "none" ∨
        strLower (stripFinalNewline s) = "nan")) ∧
    (¬(strTrim s = "" ∨ strLower (stripFinalNewline s) = "null" ∨
        strLower (stripFinalNewline s) = "none" ∨
        strLower (stripFinalNewline s) = "nan") →
      cleanEmptyValue (some s) = some s) ∧
    cleanEmptyValue none = none := by
  refine ⟨?_, ?_, rfl⟩
  · simp only [cleanEmptyValue]
    by_cases h : pandasNullToken s = true
    · rw [if_pos h]
      exact ⟨fun _ => (pandasNullToken_iff s).mp h, fun _ => rfl⟩
    · rw [if_neg h]
      constructor
      · intro hc
        simp at hc
      · intro hr
        exact absurd ((pandasNullToken_iff s).mpr hr) h
  · intro hr
    simp only [cleanEmptyValue]
    rw [if_neg (fun hh => hr ((pandasNullToken_iff s).mp hh))]

/-- Witness for C8 amended: an ordinary value passes through, while a token
carrying exactly one trailing newline is nulled. -/
theorem C8_amended_witness :
    cleanEmptyValue (some "abc") = some "abc" ∧
    cleanEmptyValue (some "NULL\n") = none :=
  ⟨(C8_amended "abc").2.1 (by decide), (C8_amended "NULL\n").1.mpr (by decide)⟩

/-- C9 fails as stated: a batch with an in-batch repeat loads one record and
counts zero skips, so loaded plus skipped does not account for the batch. -/
theorem C9_counterexample :
    (processBatch emptyLoad [dupA, dupB] true).loaded = 1 ∧
    (processBatch emptyLoad [dupA, dupB] true).skipped = 0 ∧
    ¬((processBatch emptyLoad [dupA, dupB] true).loaded
      + (processBatch emptyLoad [dupA, dupB] true).skipped
      = ([dupA, dupB] : List Posting).length) := by
  decide

/-- C9 amended: the loaded count equals the number of records appended to
the store; the skipped count counts exactly the ledger-filtered records;
within-batch repeats are dropped without being counted. -/
theorem C9_amended (st : LoadState) (b : List Posting) (hne : b ≠ [])
    (hcol : batchHasJobIdColumn b = true) :
    (processBatch st b true).loaded
        = st.loaded + (dedupFirstByJobId (ledgerFilter st.ledger b)).length ∧
    (processBatch st b true).store.length
        = st.store.length + (dedupFirstByJobId (ledgerFilter st.ledger b)).length ∧
    (processBatch st b true).skipped
        = st.skipped + (b.length - (ledgerFilter st.ledger b).length) := by
  obtain ⟨hstore, _, hloaded, hskip⟩ := processBatch_result hne hcol
  exact ⟨hloaded, by rw [hstore, List.length_append], hskip⟩

/-- Witness for C9 amended on the duplicate batch. -/
theorem C9_amended_witness :
    (processBatch emptyLoad [dupA, dupB] true).loaded
      = 0 + (dedupFirstByJobId (ledgerFilter [] [dupA, dupB])).length :=
  (C9_amended emptyLoad [dupA, dupB] (by decide) (by decide)).1

/-- C10: a record with an absent salary_text passes through every salary
rule unchanged and is not dropped by the per-unit rule. -/
theorem C10_no_text_identity (r : Posting) (h : r.salary_text = none) :
    fix_k_values [r] = [r] ∧ fix_hourly_wages [r] = [r] ∧ fix_monthly_wages [r] = [r] ∧
    fix_weekly_wages [r] = [r] ∧ drop_per_unit_wages [r] = [r] ∧
    salaryCorrector [r] = [r] := by
  have hfix : ∀ (cue : String → Bool) (th f : ℚ), applyRateFix cue th f r = r := by
    intro cue th f
    unfold applyRateFix
    rw [h]
  have hpu : hasPerUnit r = false := by
    unfold hasPerUnit
    rw [h]
  refine ⟨?_, ?_, ?_, ?_, ?_, ?_⟩ <;>
    simp [fix_k_values, fix_hourly_wages, fix_monthly_wages, fix_weekly_wages,
      drop_per_unit_wages, salaryCorrector, hfix, hpu]

/-- Witness for C10 at a record without a salary text. -/
theorem C10_no_text_identity_witness : salaryCorrector [basePosting] = [basePosting] :=
  (C10_no_text_identity basePosting rfl).2.2.2.2.2

end JobPipeline
